import Mathlib

/-!
# Verification of the docutext text assembler (`src/content/assembler.ts`)

Shallow embedding of the reading-order reconstruction and column-aware text
assembly engine.  Numbers (page coordinates, font sizes, widths) are embedded
as rationals `ℚ`; JavaScript's IEEE doubles are exact on all the small decimal
constants and test coordinates involved, and no claim probes rounding.
Strings are embedded as Lean `String`s (`text.length` counts code points;
all texts involved are ASCII/BMP, where this agrees with JS `length`).

JS `Array.prototype.sort` is a stable comparator sort; it is embedded as a
stable insertion sort (`sortByLe`), with `le a b` meaning `comparator a b ≤ 0`.
JS `while` loops are embedded as fuel-based recursions where the fuel is an
upper bound on the iteration count established by the loop's own index
arithmetic, so the out-of-fuel branch is never reached.
-/

set_option maxRecDepth 100000

namespace Docutext

/-- A positioned text fragment (`TextItem` in `src/types.ts`, fields as used by
`assembler.ts`).  `textObjectId` is the source's `_textObjectId`. -/
structure TextItem where
  text : String
  x : ℚ
  y : ℚ
  fontSize : ℚ
  fontName : String
  width : ℚ
  textObjectId : Option ℤ := none
  deriving DecidableEq, Repr

instance : Inhabited TextItem :=
  ⟨{ text := "", x := 0, y := 0, fontSize := 0, fontName := "", width := 0 }⟩

/-- A link annotation rectangle (`LinkAnnotation` in `src/content/links.ts`,
fields as used by `assembler.ts`/the spec §6: a rectangle plus a URI). -/
structure LinkAnnotation where
  x1 : ℚ
  y1 : ℚ
  x2 : ℚ
  y2 : ℚ
  uri : String
  deriving DecidableEq, Repr

/-- JavaScript `v || d` on numbers: `v` when nonzero, else `d`
(NaN, which is not representable in `ℚ`, is not modelled). -/
def jsOr (v d : ℚ) : ℚ := if v = 0 then d else v

/-- `shouldInsertSpace` (assembler.ts:28-43). -/
def shouldInsertSpace (xGap posGap : ℚ) (textLen : ℕ) (fontSize : ℚ)
    (hasMetricWidth : Bool) : Bool :=
  if hasMetricWidth then
    decide (xGap > fontSize * 0.15)
  else
    -- No reliable width data: position-based estimate, ~0.5em per character.
    let estimatedRunWidth : ℚ := (max textLen 1 : ℕ) * fontSize * 0.5
    decide (posGap > estimatedRunWidth)

/-- An item tagged with its original stream index (`TaggedEntry`). -/
structure Tagged where
  item : TextItem
  i : ℕ
  deriving DecidableEq, Repr

instance : Inhabited Tagged := ⟨{ item := default, i := 0 }⟩

/-- Stable insertion of `x` into `l`: `x` goes immediately before the first
element `y` with `le x y`.  For a total preorder `le` this is the unique
stable sorted position. -/
def insertLe (le : α → α → Bool) (x : α) : List α → List α
  | [] => [x]
  | y :: ys => if le x y then x :: y :: ys else y :: insertLe le x ys

/-- Stable sort by `le` (models JS `Array.prototype.sort`, which is stable;
`le a b` encodes `comparator(a, b) ≤ 0`). -/
def sortByLe (le : α → α → Bool) : List α → List α
  | [] => []
  | x :: xs => insertLe le x (sortByLe le xs)

/-- Phase-1 comparator `(a, b) => (b.item.y || 0) - (a.item.y || 0)` as a
`≤`-relation: y descending (`y || 0` is the identity on `ℚ`). -/
def yDescLe (a b : Tagged) : Bool := decide (b.item.y ≤ a.item.y)

/-- The effective font size of the line-clustering threshold
(assembler.ts:77: `prev.item.fontSize > 0 ? prev.item.fontSize : 12`). -/
def clusterFontSize (fs : ℚ) : ℚ := if fs > 0 then fs else 12

/-- Whether the clusterer starts a new line between consecutive sorted
fragments `prev` and `cur` (assembler.ts:76-79). -/
def newLineCond (prev cur : Tagged) : Bool :=
  decide (|cur.item.y - prev.item.y| > clusterFontSize prev.item.fontSize * 0.5)

/-- Loop body of phase 2 (assembler.ts:74-85): `prev` is the last fragment of
`cur` (equivalently the previous fragment of the walked sequence). -/
def clusterGo (prev : Tagged) (cur : List Tagged) (acc : List (List Tagged)) :
    List Tagged → List (List Tagged)
  | [] => acc ++ [cur]
  | x :: xs =>
    if newLineCond prev x then clusterGo x [x] (acc ++ [cur]) xs
    else clusterGo x (cur ++ [x]) acc xs

/-- Phase 2: cluster the y-sorted fragment sequence into lines. -/
def clusterLines : List Tagged → List (List Tagged)
  | [] => []
  | t :: ts => clusterGo t [t] [] ts

/-- Per-line minimum x of the fragments carrying text-object id `objId`
(the `objMinX` map of assembler.ts:90-98; the map stores the first minimal
value, which equals the minimum). -/
def objMinX (line : List Tagged) (objId : ℤ) : Option ℚ :=
  ((line.filter (fun e => e.item.textObjectId = some objId)).map
    (fun e => e.item.x)).min?

/-- Phase-3 comparator (assembler.ts:100-115) as a `≤`-relation
(`comparator(a,b) ≤ 0`).  `objMinX.get(objId) ?? 0` is `(objMinX ...).getD 0`. -/
def lineLe (line : List Tagged) (a b : Tagged) : Bool :=
  match a.item.textObjectId, b.item.textObjectId with
  | some objA, some objB =>
    if objA ≠ objB then
      let minXA := (objMinX line objA).getD 0
      let minXB := (objMinX line objB).getD 0
      if |minXA - minXB| > 0.1 then decide (minXA ≤ minXB)
      else decide (a.item.x ≤ b.item.x)
    else decide (a.i ≤ b.i)
  | _, _ => decide (a.item.x ≤ b.item.x)

/-- Phase 3: within one line, sort by text-object representative x, then by
stream order inside a text object, else by raw x. -/
def sortLine (line : List Tagged) : List Tagged := sortByLe (lineLe line) line

-- Column detection constants (assembler.ts:136-138).

def MIN_COLUMN_RUN : ℕ := 3
def COLUMN_GAP_FACTOR : ℚ := 3
def MAX_GAPLESS_BRIDGE : ℕ := 3

/-- `GapInfo` (assembler.ts:140-144). -/
structure GapInfo where
  /-- X where the right column starts (first item after the dominant gap). -/
  rightX : ℚ
  fontSize : ℚ
  deriving DecidableEq, Repr

/-- `itemRightEdge` (assembler.ts:146-149). -/
def itemRightEdge (entry : Tagged) : ℚ :=
  entry.item.x +
    jsOr entry.item.width (entry.item.text.length * jsOr entry.item.fontSize 12 * 0.6)

/-- `lineIsOneSide` (assembler.ts:151-156). -/
def lineIsOneSide (line : List Tagged) (boundary : ℚ) : Bool :=
  line.all (fun e => decide (itemRightEdge e < boundary)) ||
    line.all (fun e => decide (e.item.x ≥ boundary))

/-- Inner loop of `findDominantColumnGap` (assembler.ts:166-176): fold over
adjacent pairs keeping the largest qualifying gap (strict `>`, so the first
maximal gap wins). -/
def dominantGapFold (minGap : ℚ) : List (Tagged × Tagged) → ℚ × ℚ → ℚ × ℚ
  | [], st => st
  | (prev, curr) :: rest, (maxGap, maxGapRightX) =>
    let prevEnd := prev.item.x +
      jsOr prev.item.width (prev.item.text.length * jsOr prev.item.fontSize 12 * 0.6)
    let gap := curr.item.x - prevEnd
    if gap > minGap ∧ gap > maxGap then
      dominantGapFold minGap rest (gap, curr.item.x)
    else
      dominantGapFold minGap rest (maxGap, maxGapRightX)

/-- `findDominantColumnGap` (assembler.ts:158-179). -/
def findDominantColumnGap (line : List Tagged) : Option GapInfo :=
  if line.length < 2 then none
  else
    let fontSize := jsOr ((line.headD default).item.fontSize) 12
    let minGap := fontSize * COLUMN_GAP_FACTOR
    let st := dominantGapFold minGap (line.zip line.tail) (0, 0)
    if st.1 > 0 then some { rightX := st.2, fontSize := fontSize } else none

/-- `ColumnRegion` (assembler.ts:181-185): `[start, end)` line indices plus
the learned boundary x.  `stop` is the source's `end` (a Lean keyword). -/
structure ColumnRegion where
  start : ℕ
  stop : ℕ
  boundaryX : ℚ
  deriving DecidableEq, Repr

/-- Inner growth loop of `detectColumnRegions` (assembler.ts:203-221).
State `(j, sumRX, count, gaplessRun)`; returns the final `(j, sumRX, count)`.
`fuel ≥ gaps.length - j` bounds the iteration count (`j` increases by 1 each
step), so the out-of-fuel branch is never taken. -/
def growRegion (lines : List (List Tagged)) (gaps : List (Option GapInfo))
    (tolerance : ℚ) :
    ℕ → ℕ → ℚ → ℕ → ℕ → ℕ × ℚ × ℕ
  | 0, j, sumRX, count, _ => (j, sumRX, count)
  | fuel + 1, j, sumRX, count, gaplessRun =>
    if j < gaps.length then
      match gaps.getD j none with
      | some g =>
        if |g.rightX - sumRX / count| > tolerance then (j, sumRX, count)
        else growRegion lines gaps tolerance fuel (j + 1) (sumRX + g.rightX) (count + 1) 0
      | none =>
        if gaplessRun ≥ MAX_GAPLESS_BRIDGE then (j, sumRX, count)
        else
          let yGap := |((lines.getD j []).headD default).item.y -
            ((lines.getD (j - 1) []).headD default).item.y|
          let fs := jsOr (((lines.getD (j - 1) []).headD default).item.fontSize) 12
          if yGap > fs * 2.5 then (j, sumRX, count)
          else if ¬ lineIsOneSide (lines.getD j []) (sumRX / count) then (j, sumRX, count)
          else growRegion lines gaps tolerance fuel (j + 1) sumRX count (gaplessRun + 1)
    else (j, sumRX, count)

/-- Backward extension loop of `detectColumnRegions` (assembler.ts:227-242).
`start` decreases by 1 each step, so fuel `start - minStart` suffices. -/
def backExtend (lines : List (List Tagged)) (gaps : List (Option GapInfo))
    (tolerance boundaryX : ℚ) (minStart : ℕ) :
    ℕ → ℕ → ℕ → ℕ
  | 0, start, _ => start
  | fuel + 1, start, backGapless =>
    if start > minStart then
      match gaps.getD (start - 1) none with
      | some prev =>
        if |prev.rightX - boundaryX| > tolerance then start
        else backExtend lines gaps tolerance boundaryX minStart fuel (start - 1) 0
      | none =>
        if backGapless ≥ MAX_GAPLESS_BRIDGE then start
        else if ¬ lineIsOneSide (lines.getD (start - 1) []) boundaryX then start
        else backExtend lines gaps tolerance boundaryX minStart fuel (start - 1) (backGapless + 1)
    else start

/-- Outer loop of `detectColumnRegions` (assembler.ts:192-248).  `minStart`
carries `regions[regions.length - 1].end` (0 when no region yet); `i`
increases by at least 1 per iteration, so `fuel ≥ gaps.length - i` suffices. -/
def detectFrom (lines : List (List Tagged)) (gaps : List (Option GapInfo)) :
    ℕ → ℕ → ℕ → List ColumnRegion
  | 0, _, _ => []
  | fuel + 1, i, minStart =>
    if i < gaps.length then
      match gaps.getD i none with
      | none => detectFrom lines gaps fuel (i + 1) minStart
      | some anchor =>
        let tolerance := anchor.fontSize * 3
        let g := growRegion lines gaps tolerance gaps.length (i + 1) anchor.rightX 1 0
        if g.2.2 ≥ MIN_COLUMN_RUN then
          let boundaryX := g.2.1 / g.2.2
          let start := backExtend lines gaps tolerance boundaryX minStart i i 0
          { start := start, stop := g.1, boundaryX := boundaryX } ::
            detectFrom lines gaps fuel g.1 g.1
        else detectFrom lines gaps fuel (i + 1) minStart
    else []

/-- `detectColumnRegions` (assembler.ts:187-251). -/
def detectColumnRegions (lines : List (List Tagged)) : List ColumnRegion :=
  let gaps := lines.map findDominantColumnGap
  detectFrom lines gaps gaps.length 0 0

/-- The x at which a region line `l` is split (assembler.ts:274-275): the
line's own dominant gap's `rightX` when present, else the region boundary. -/
def lineSplitX (boundaryX : ℚ) (l : List Tagged) : ℚ :=
  match findDominantColumnGap l with
  | some g => g.rightX
  | none => boundaryX

/-- One region's output (assembler.ts:265-289): split each line at its own
split x, collect nonempty left parts then nonempty right parts. -/
def regionOut (lines : List (List Tagged)) (r : ColumnRegion) : List (List Tagged) :=
  let regionLines := (List.range' r.start (r.stop - r.start)).map (fun j => lines.getD j [])
  let left := (regionLines.map
    (fun l => l.filter (fun e => decide (e.item.x < lineSplitX r.boundaryX l)))).filter
    (fun l => !l.isEmpty)
  let right := (regionLines.map
    (fun l => l.filter (fun e => !(decide (e.item.x < lineSplitX r.boundaryX l))))).filter
    (fun l => !l.isEmpty)
  left ++ right

/-- Main loop of `reorderColumnRegions` (assembler.ts:257-296): emit the lines
before each region unchanged, then the region's reordered output; after the
last region, emit the remaining lines. -/
def reorderLoop (lines : List (List Tagged)) :
    List ColumnRegion → ℕ → List (List Tagged)
  | [], lineIdx =>
    (List.range' lineIdx (lines.length - lineIdx)).map (fun j => lines.getD j [])
  | r :: rs, lineIdx =>
    ((List.range' lineIdx (r.start - lineIdx)).map (fun j => lines.getD j [])) ++
      regionOut lines r ++ reorderLoop lines rs r.stop

/-- `reorderColumnRegions` (assembler.ts:253-298). -/
def reorderColumnRegions (lines : List (List Tagged)) : List (List Tagged) :=
  match detectColumnRegions lines with
  | [] => lines
  | regions => reorderLoop lines regions 0

/-- Tag each item with its original stream index
(`items.map((item, i) => ({ item, i }))`, assembler.ts:65). -/
def tagWith : ℕ → List TextItem → List Tagged
  | _, [] => []
  | n, it :: its => ⟨it, n⟩ :: tagWith (n + 1) its

/-- `sortTextItems` (assembler.ts:59-122). -/
def sortTextItems (items : List TextItem) : List TextItem :=
  match items with
  | [] => []
  | _ =>
    let tagged := tagWith 0 items
    let sorted := sortByLe yDescLe tagged
    let lines := clusterLines sorted
    let lines3 := lines.map sortLine
    let reordered := reorderColumnRegions lines3
    (reordered.flatten).map (fun e => e.item)

-- ---------------------------------------------------------------------------
-- Unified walk/emit core (assembler.ts:418-470)
-- ---------------------------------------------------------------------------

/-- `findLinkForItem` (assembler.ts:401-416): first link rectangle containing
the item's horizontal center and vertical position (the `links.length === 0`
early return coincides with `find?` on `[]`; `item.width || 0` is the
identity on `ℚ`). -/
def findLinkForItem (item : TextItem) (links : List LinkAnnotation) : Option String :=
  let itemCenterX := item.x + item.width / 2
  (links.find? (fun link =>
    decide (itemCenterX ≥ link.x1) && decide (itemCenterX ≤ link.x2) &&
    decide (item.y ≥ link.y1) && decide (item.y ≤ link.y2))).map (fun l => l.uri)

/-- Events reported by the walk core to a sink (`ItemVisitor`,
assembler.ts:418-423).  `stop` is `onEnd`. -/
inductive WalkEvent where
  | lineBreak (isParagraphBreak : Bool)
  | space
  | item (it : TextItem) (link : Option String)
  | stop
  deriving DecidableEq, Repr

/-- The walk state (assembler.ts:433-439). -/
structure WalkState where
  lastX : ℚ
  lastY : ℚ
  lastFontSize : ℚ
  lastWidth : ℚ
  lastHasMetricWidth : Bool
  lastTextLen : ℕ
  hasContent : Bool
  deriving DecidableEq, Repr

/-- One iteration of the walk loop (assembler.ts:441-467): the events emitted
for `item` and the updated state.  An empty `item.text` is skipped
(`continue`).  Note the source updates `lastFontSize` *before* computing the
width estimate, so the estimate uses the new font size. -/
def walkStep (links : List LinkAnnotation) (st : WalkState) (item : TextItem) :
    WalkState × List WalkEvent :=
  if item.text = "" then (st, [])
  else
    let yDelta := |item.y - st.lastY|
    let lineThreshold := st.lastFontSize * 0.5
    let itemLink := findLinkForItem item links
    let breakEvents :=
      if yDelta > lineThreshold ∧ st.hasContent = true then
        [WalkEvent.lineBreak (decide (yDelta > st.lastFontSize * 1.8))]
      else if st.hasContent = true then
        let xGap := item.x - (st.lastX + st.lastWidth)
        let posGap := item.x - st.lastX
        if xGap < -st.lastFontSize * 2 ∨
            shouldInsertSpace xGap posGap st.lastTextLen st.lastFontSize
              st.lastHasMetricWidth = true then
          [WalkEvent.space]
        else []
      else []
    let newFontSize := jsOr item.fontSize st.lastFontSize
    ( { lastX := item.x
        lastY := item.y
        lastFontSize := newFontSize
        lastWidth := jsOr item.width (item.text.length * newFontSize * 0.6)
        lastHasMetricWidth := decide (item.width > 0)
        lastTextLen := item.text.length
        hasContent := true },
      breakEvents ++ [WalkEvent.item item itemLink] )

/-- The walk loop over the sorted items, followed by `onEnd`. -/
def walkGo (links : List LinkAnnotation) (st : WalkState) :
    List TextItem → List WalkEvent
  | [] => [WalkEvent.stop]
  | it :: rest =>
    let p := walkStep links st it
    p.2 ++ walkGo links p.1 rest

/-- `walkItems` (assembler.ts:430-470) as an event stream.  The initial state
reads `sorted[0]` (assembler.ts:433-439); both callers guard against empty
input, so the `[]` branch is unreachable. -/
def walkEvents (items : List TextItem) (links : List LinkAnnotation) :
    List WalkEvent :=
  match sortTextItems items with
  | [] => [WalkEvent.stop]
  | s0 :: rest =>
    let init : WalkState :=
      { lastX := 0, lastY := s0.y, lastFontSize := jsOr s0.fontSize 12
        lastWidth := 0, lastHasMetricWidth := false, lastTextLen := 0
        hasContent := false }
    walkGo links init (s0 :: rest)

-- ---------------------------------------------------------------------------
-- Text normalization (assembler.ts:336-384)
-- ---------------------------------------------------------------------------

/-- `PUA_TO_UNICODE` (assembler.ts:340-368) as a lookup function. -/
def puaToUnicode (c : ℕ) : Option ℕ :=
  match c with
  | 0xF020 => some 0x0020
  | 0xF02D => some 0x2212
  | 0xF06C => some 0x2113
  | 0xF06E => some 0x25CF
  | 0xF0A0 => some 0x20AC
  | 0xF0A7 => some 0x00A7
  | 0xF0A8 => some 0x2190
  | 0xF0A9 => some 0x2191
  | 0xF0AA => some 0x2192
  | 0xF0AB => some 0x2193
  | 0xF0AC => some 0x2194
  | 0xF0B0 => some 0x00B0
  | 0xF0B1 => some 0x00B1
  | 0xF0B2 => some 0x2033
  | 0xF0B3 => some 0x2265
  | 0xF0B4 => some 0x00D7
  | 0xF0B5 => some 0x221D
  | 0xF0B7 => some 0x2022
  | 0xF0B9 => some 0x2260
  | 0xF0BA => some 0x2261
  | 0xF0BB => some 0x2248
  | 0xF0D8 => some 0x00D8
  | 0xF0E0 => some 0x21D0
  | 0xF0E1 => some 0x21D1
  | 0xF0E2 => some 0x21D2
  | 0xF0E3 => some 0x21D3
  | 0xF0E4 => some 0x21D4
  | _ => none

/-- Private Use Area range U+E000..U+F8FF (`PUA_RE`). -/
def isPUA (c : Char) : Bool := 0xE000 ≤ c.toNat && c.toNat ≤ 0xF8FF

/-- `normalizePUA` (assembler.ts:377-384): known PUA codepoints are remapped,
unknown ones deleted, other characters kept (the `PUA_RE.test` early return
returns the same string as the replace when no PUA character occurs). -/
def normalizePUA (text : String) : String :=
  ⟨text.data.filterMap (fun c =>
    if isPUA c then
      match puaToUnicode c.toNat with
      | some u => if h : u.isValidChar then some (Char.ofNatAux u h) else none
      | none => none
    else some c)⟩

-- ---------------------------------------------------------------------------
-- Form placeholder stripping (assembler.ts:300-333)
-- ---------------------------------------------------------------------------

/-- JS `\s` on the characters reachable here (ASCII whitespace and NBSP;
the PDF texts involved contain no exotic Unicode spaces). -/
def isJsWs (c : Char) : Bool :=
  c = ' ' || c = '\t' || c = '\n' || c = '\r' || c = '\x0b' || c = '\x0c' ||
    c = '\u00a0'

/-- `[a-zA-Z_]`: the body characters of a form anchor name. -/
def isAnchorChar (c : Char) : Bool := c.isAlpha || c = '_'

/-- `[0-9]` (JS `\d`). -/
def isDigitChar (c : Char) : Bool := c.isDigit

/-- Which alternative of `FORM_PLACEHOLDER_RE` matched. -/
inductive MatchKind where
  /-- `\\[a-zA-Z_]+\d*\\` -/
  | closedAnchor
  /-- `\\[a-zA-Z_]+\d+(?=[\s\\a-zA-Z]|$)` -/
  | openAnchor
  /-- ` \\(?=[\s]|$)` -/
  | orphan
  deriving DecidableEq, Repr

/-- The lookahead class `[\s\\a-zA-Z]|$` of the open-anchor alternative,
applied to the text following the match. -/
def openLookaheadOk : List Char → Bool
  | [] => true
  | c :: _ => isJsWs c || c = '\\' || c.isAlpha

/-- A match of `FORM_PLACEHOLDER_RE` (assembler.ts:310) anchored at the head
of `cs`: the alternative that matched and the number of characters consumed
(lookaheads are not consumed).  Alternatives are tried in source order; the
quantifiers `[a-zA-Z_]+` and `\d*`/`\d+` are maximal-munch here because no
backtracked (shorter) run can ever satisfy the following mandatory
backslash/lookahead, whose character classes are disjoint from the runs'. -/
def stripMatchAt (cs : List Char) : Option (MatchKind × ℕ) :=
  match cs with
  | '\\' :: rest =>
    let letters := rest.takeWhile isAnchorChar
    if letters.length = 0 then none
    else
      let afterLetters := rest.drop letters.length
      let digits := afterLetters.takeWhile isDigitChar
      let afterDigits := afterLetters.drop digits.length
      match afterDigits with
      | '\\' :: _ => some (MatchKind.closedAnchor, 1 + letters.length + digits.length + 1)
      | _ =>
        if digits.length ≥ 1 ∧ openLookaheadOk afterDigits = true then
          some (MatchKind.openAnchor, 1 + letters.length + digits.length)
        else none
  | ' ' :: '\\' :: rest2 =>
    match rest2 with
    | [] => some (MatchKind.orphan, 2)
    | c :: _ => if isJsWs c then some (MatchKind.orphan, 2) else none
  | _ => none

/-- Global replace of `FORM_PLACEHOLDER_RE` by the empty string: scan left to
right, deleting each match and resuming after it.  Every match consumes at
least two characters, so fuel `cs.length` suffices (each step consumes ≥ 1
character; out of fuel the remaining text is returned unchanged, which is
never reached). -/
def stripScan : ℕ → List Char → List Char
  | 0, cs => cs
  | _ + 1, [] => []
  | fuel + 1, c :: cs =>
    match stripMatchAt (c :: cs) with
    | some (_, n) => stripScan fuel (List.drop (n - 1) cs)
    | none => c :: stripScan fuel cs

/-- Global replace of `TRAILING_BACKSLASH_RE = /\\(?=\s|$)/` by the empty
string: remove every backslash directly followed by whitespace or the end. -/
def dropTrailingBackslashes : List Char → List Char
  | [] => []
  | c :: cs =>
    if c = '\\' ∧ (cs = [] ∨ (isJsWs (cs.headD ' ') = true)) then
      dropTrailingBackslashes cs
    else c :: dropTrailingBackslashes cs

/-- `stripFormPlaceholderText` (assembler.ts:329-333). -/
def stripFormPlaceholderText (text : String) : String :=
  ⟨dropTrailingBackslashes (stripScan text.data.length text.data)⟩

-- ---------------------------------------------------------------------------
-- Structured sink (assembler.ts:386-572)
-- ---------------------------------------------------------------------------

/-- `TextSpan` (`src/types.ts`, fields as used by `assembler.ts`): a
style-homogeneous run; `link := none` models an absent `link` field. -/
structure TextSpan where
  text : String
  bold : Bool
  italic : Bool
  link : Option String := none
  deriving DecidableEq, Repr

/-- `StructuredLine` (assembler.ts:390-396). -/
structure StructuredLine where
  text : String
  spans : List TextSpan
  fontSize : ℚ
  y : ℚ
  isBlankAfter : Bool
  deriving DecidableEq, Repr

/-- `AssemblyOptions` (assembler.ts:386-388). -/
structure AssemblyOptions where
  stripFormPlaceholders : Option Bool := none
  deriving DecidableEq, Repr

/-- Modelled from the spec: `detectFontStyle` (`src/content/font-style.ts` is
not under `src/`); §4.7/§6: bold iff the font name contains "bold"
case-insensitively, italic iff it contains "italic" or "oblique". -/
def containsChars (needle : List Char) : List Char → Bool
  | [] => needle.isEmpty
  | c :: cs => needle.isPrefixOf (c :: cs) || containsChars needle cs

/-- Modelled from the spec (§4.7): the font-style classifier consumed from
`font-style.ts`. -/
def detectFontStyle (fontName : String) : Bool × Bool :=
  let lower := fontName.data.map Char.toLower
  (containsChars "bold".data lower,
   containsChars "italic".data lower || containsChars "oblique".data lower)

/-- The structured sink's mutable state (assembler.ts:503-507). -/
structure SinkState where
  spans : List TextSpan
  text : String
  fontSize : ℚ
  y : ℚ
  deriving DecidableEq, Repr

/-- `appendToSpans` (assembler.ts:517-530): merge into the last span when the
style tuple and link agree, else push a new span.  The stored link drops a
falsy (empty) URI (`...(link ? { link } : {})`), while the merge comparison
`last.link === link` uses the raw lookup result. -/
def appendToSpans (st : SinkState) (rawText fontName : String)
    (link : Option String) : SinkState :=
  let text := normalizePUA rawText
  let style := detectFontStyle fontName
  let storedLink : Option String :=
    match link with
    | some u => if u = "" then none else some u
    | none => none
  match st.spans.getLast? with
  | some last =>
    if last.bold = style.1 ∧ last.italic = style.2 ∧ last.link = link then
      { st with
        spans := st.spans.dropLast ++
          [{ text := last.text ++ text, bold := last.bold, italic := last.italic
             link := last.link }]
        text := st.text ++ text }
    else
      { st with
        spans := st.spans ++ [{ text := text, bold := style.1, italic := style.2
                                link := storedLink }]
        text := st.text ++ text }
  | none =>
    { st with
      spans := st.spans ++ [{ text := text, bold := style.1, italic := style.2
                              link := storedLink }]
      text := st.text ++ text }

/-- `pushLine` (assembler.ts:509-515): emit the current line when its text is
nonempty, and reset the span/text buffers. -/
def pushLine (st : SinkState) (isBlankAfter : Bool) :
    List StructuredLine × SinkState :=
  ((if st.text ≠ "" then
      [{ text := st.text, spans := st.spans, fontSize := st.fontSize
         y := st.y, isBlankAfter := isBlankAfter }]
    else []),
   { st with spans := [], text := "" })

/-- The structured sink's `onItem` (assembler.ts:543-549). -/
def sinkOnItem (st : SinkState) (item : TextItem) (link : Option String) :
    SinkState :=
  let st1 := if st.text = "" then { st with fontSize := item.fontSize, y := item.y }
    else st
  let st2 := appendToSpans st1 item.text item.fontName link
  { st2 with fontSize := max st2.fontSize item.fontSize }

/-- The structured sink's `onSpace` (assembler.ts:536-541): append one space
to the last span and the running text when a span exists. -/
def sinkOnSpace (st : SinkState) : SinkState :=
  match st.spans.getLast? with
  | some last =>
    { st with
      spans := st.spans.dropLast ++ [{ last with text := last.text ++ " " }]
      text := st.text ++ " " }
  | none => st

/-- The structured sink consuming the walk's events (assembler.ts:532-554). -/
def sinkGo (st : SinkState) : List WalkEvent → List StructuredLine
  | [] => []
  | WalkEvent.lineBreak isPara :: es =>
    let p := pushLine st isPara
    p.1 ++ sinkGo p.2 es
  | WalkEvent.space :: es => sinkGo (sinkOnSpace st) es
  | WalkEvent.item it link :: es => sinkGo (sinkOnItem st it link) es
  | WalkEvent.stop :: es =>
    let p := pushLine st false
    p.1 ++ sinkGo p.2 es

/-- The post-assembly placeholder stripping applied per line
(assembler.ts:556-569). -/
def stripStructuredLine (line : StructuredLine) : StructuredLine :=
  { line with
    text := stripFormPlaceholderText line.text
    spans := line.spans.map (fun span =>
      { span with text := stripFormPlaceholderText span.text }) }

/-- `assembleStructuredItems` (assembler.ts:500-572). -/
def assembleStructuredItems (items : List TextItem)
    (links : List LinkAnnotation := []) (options : Option AssemblyOptions := none) :
    List StructuredLine :=
  match items with
  | [] => []
  | _ =>
    let init : SinkState := { spans := [], text := "", fontSize := 0, y := 0 }
    let result := sinkGo init (walkEvents items links)
    if (options.bind (fun o => o.stripFormPlaceholders)).getD true then
      result.map stripStructuredLine
    else result

-- ---------------------------------------------------------------------------
-- Permutation lemmas for the ordering pipeline
-- ---------------------------------------------------------------------------

open List in
theorem insertLe_perm (le : α → α → Bool) (x : α) (l : List α) :
    insertLe le x l ~ x :: l := by
  induction l with
  | nil => simp [insertLe]
  | cons y ys ih =>
    simp only [insertLe]
    split
    · exact Perm.refl _
    · exact (Perm.cons y ih).trans (Perm.swap x y ys)

open List in
theorem sortByLe_perm (le : α → α → Bool) (l : List α) : sortByLe le l ~ l := by
  induction l with
  | nil => rfl
  | cons x xs ih =>
    exact (insertLe_perm le x (sortByLe le xs)).trans (Perm.cons x ih)

theorem clusterGo_flatten (l : List Tagged) : ∀ prev cur acc,
    (clusterGo prev cur acc l).flatten = acc.flatten ++ cur ++ l := by
  induction l with
  | nil => intro prev cur acc; simp [clusterGo]
  | cons x xs ih =>
    intro prev cur acc
    simp only [clusterGo]
    split
    · rw [ih]; simp
    · rw [ih]; simp

theorem clusterLines_flatten (l : List Tagged) : (clusterLines l).flatten = l := by
  cases l with
  | nil => rfl
  | cons t ts => simpa using clusterGo_flatten ts t [t] []

open List in
theorem flatten_map_perm (f : List α → List α) (h : ∀ l, f l ~ l) :
    ∀ ls : List (List α), (ls.map f).flatten ~ ls.flatten := by
  intro ls
  induction ls with
  | nil => rfl
  | cons a ls ih => simpa using Perm.append (h a) ih

theorem range'_map_getD (d : α) : ∀ (n s : ℕ) (ls : List α), s + n ≤ ls.length →
    (List.range' s n).map (fun j => ls.getD j d) = (ls.drop s).take n := by
  intro n
  induction n with
  | zero => intro s ls _; simp
  | succ n ih =>
    intro s ls h
    have hs : s < ls.length := by omega
    rw [List.range'_succ, List.map_cons, ih (s + 1) ls (by omega),
      List.drop_eq_getElem_cons hs, List.take_succ_cons,
      List.getD_eq_getElem ls d hs]

theorem flatten_filter_isEmpty (ls : List (List α)) :
    (ls.filter (fun l => !l.isEmpty)).flatten = ls.flatten := by
  induction ls with
  | nil => rfl
  | cons a ls ih =>
    cases a with
    | nil => simpa using ih
    | cons x xs => simpa using ih

open List in
theorem flatten_split_perm (p : List α → α → Bool) (ls : List (List α)) :
    ((ls.map (fun l => l.filter (p l))).flatten ++
      (ls.map (fun l => l.filter (fun e => !(p l e)))).flatten) ~ ls.flatten := by
  induction ls with
  | nil => rfl
  | cons a ls ih =>
    simp only [map_cons, flatten_cons, append_assoc]
    have mid : (ls.map (fun l => l.filter (p l))).flatten ++
        (a.filter (fun e => !(p a e)) ++
          (ls.map (fun l => l.filter (fun e => !(p l e)))).flatten) ~
        a.filter (fun e => !(p a e)) ++
          ((ls.map (fun l => l.filter (p l))).flatten ++
            (ls.map (fun l => l.filter (fun e => !(p l e)))).flatten) := by
      rw [← List.append_assoc, ← List.append_assoc]
      exact Perm.append_right _ perm_append_comm
    refine (Perm.append_left _ mid).trans ?_
    rw [← List.append_assoc]
    exact Perm.append (List.filter_append_perm _ a) ih

open List in
theorem regionOut_perm (lines : List (List Tagged)) (r : ColumnRegion)
    (h1 : r.start ≤ r.stop) (h2 : r.stop ≤ lines.length) :
    (regionOut lines r).flatten ~ ((lines.drop r.start).take (r.stop - r.start)).flatten := by
  unfold regionOut
  rw [range'_map_getD _ _ _ _ (by omega)]
  simp only [flatten_append]
  rw [flatten_filter_isEmpty, flatten_filter_isEmpty]
  exact flatten_split_perm (fun l e => decide (e.item.x < lineSplitX r.boundaryX l)) _

/-- Well-formedness of a region list: each region lies after the floor `m`,
is nonempty, ends within the page, and precedes the next one. -/
def chainOK (len : ℕ) : ℕ → List ColumnRegion → Prop
  | _, [] => True
  | m, r :: rs => m ≤ r.start ∧ r.start < r.stop ∧ r.stop ≤ len ∧ chainOK len r.stop rs

theorem growRegion_bounds (lines : List (List Tagged)) (gaps : List (Option GapInfo))
    (tolerance : ℚ) : ∀ (fuel j : ℕ) (sumRX : ℚ) (count gaplessRun : ℕ),
    j ≤ gaps.length →
    j ≤ (growRegion lines gaps tolerance fuel j sumRX count gaplessRun).1 ∧
      (growRegion lines gaps tolerance fuel j sumRX count gaplessRun).1 ≤ gaps.length := by
  intro fuel
  induction fuel with
  | zero => intro j s c g h; simp [growRegion]; omega
  | succ fuel ih =>
    intro j s c g h
    simp only [growRegion]
    split
    · rename_i hj
      split
      · rename_i gi hgi
        split
        · simpa using h
        · have h2 := ih (j + 1) (s + gi.rightX) (c + 1) 0 (by omega)
          exact ⟨by omega, h2.2⟩
      · split
        · simpa using h
        · split
          · simpa using h
          · split
            · simpa using h
            · have h2 := ih (j + 1) s c (g + 1) (by omega)
              exact ⟨by omega, h2.2⟩
    · simpa using h

theorem backExtend_bounds (lines : List (List Tagged)) (gaps : List (Option GapInfo))
    (tolerance boundaryX : ℚ) (minStart : ℕ) : ∀ (fuel start backGapless : ℕ),
    minStart ≤ start →
    minStart ≤ backExtend lines gaps tolerance boundaryX minStart fuel start backGapless ∧
      backExtend lines gaps tolerance boundaryX minStart fuel start backGapless ≤ start := by
  intro fuel
  induction fuel with
  | zero => intro start bg h; simp [backExtend]; omega
  | succ fuel ih =>
    intro start bg h
    simp only [backExtend]
    split
    · split
      · split
        · exact ⟨h, le_rfl⟩
        · have h2 := ih (start - 1) 0 (by omega)
          exact ⟨h2.1, by omega⟩
      · split
        · exact ⟨h, le_rfl⟩
        · split
          · exact ⟨h, le_rfl⟩
          · have h2 := ih (start - 1) (bg + 1) (by omega)
            exact ⟨h2.1, by omega⟩
    · exact ⟨h, le_rfl⟩

theorem detectFrom_chain (lines : List (List Tagged)) (gaps : List (Option GapInfo))
    (hlen : gaps.length = lines.length) : ∀ (fuel i minStart : ℕ), minStart ≤ i →
    chainOK lines.length minStart (detectFrom lines gaps fuel i minStart) := by
  intro fuel
  induction fuel with
  | zero => intro i m _; simp [detectFrom, chainOK]
  | succ fuel ih =>
    intro i m hmi
    simp only [detectFrom]
    split
    · rename_i hi
      split
      · exact ih (i + 1) m (by omega)
      · rename_i anchor hanchor
        split
        · rename_i hcount
          have hgrow := growRegion_bounds lines gaps (anchor.fontSize * 3)
            gaps.length (i + 1) anchor.rightX 1 0 (by omega)
          have hback := backExtend_bounds lines gaps (anchor.fontSize * 3)
            ((growRegion lines gaps (anchor.fontSize * 3) gaps.length (i + 1)
              anchor.rightX 1 0).2.1 /
              ((growRegion lines gaps (anchor.fontSize * 3) gaps.length (i + 1)
                anchor.rightX 1 0).2.2 : ℚ)) m i i 0 hmi
          simp only [chainOK]
          exact ⟨hback.1, by omega, by omega, ih _ _ le_rfl⟩
        · exact ih (i + 1) m (by omega)
    · simp [chainOK]

open List in
theorem reorderLoop_perm (lines : List (List Tagged)) :
    ∀ (regions : List ColumnRegion) (lineIdx : ℕ),
    chainOK lines.length lineIdx regions → lineIdx ≤ lines.length →
    (reorderLoop lines regions lineIdx).flatten ~ (lines.drop lineIdx).flatten := by
  intro regions
  induction regions with
  | nil =>
    intro lineIdx _ hle
    simp only [reorderLoop]
    rw [range'_map_getD _ _ _ _ (by omega)]
    rw [show lines.length - lineIdx = (lines.drop lineIdx).length by simp,
      List.take_length]
  | cons r rs ih =>
    intro lineIdx hchain hle
    obtain ⟨h1, h2, h3, h4⟩ := hchain
    simp only [reorderLoop, flatten_append]
    rw [range'_map_getD _ _ _ _ (by omega)]
    have hsplit1 : lines.drop lineIdx =
        (lines.drop lineIdx).take (r.start - lineIdx) ++ lines.drop r.start := by
      conv_lhs => rw [← List.take_append_drop (r.start - lineIdx) (lines.drop lineIdx)]
      rw [List.drop_drop, show lineIdx + (r.start - lineIdx) = r.start by omega]
    have hsplit2 : lines.drop r.start =
        (lines.drop r.start).take (r.stop - r.start) ++ lines.drop r.stop := by
      conv_lhs => rw [← List.take_append_drop (r.stop - r.start) (lines.drop r.start)]
      rw [List.drop_drop, show r.start + (r.stop - r.start) = r.stop by omega]
    have hdecomp : (lines.drop lineIdx).flatten =
        ((lines.drop lineIdx).take (r.start - lineIdx)).flatten ++
          (((lines.drop r.start).take (r.stop - r.start)).flatten ++
            (lines.drop r.stop).flatten) := by
      conv_lhs => rw [hsplit1]
      rw [List.flatten_append]
      congr 1
      conv_lhs => rw [hsplit2]
      rw [List.flatten_append]
    rw [hdecomp, List.append_assoc]
    refine Perm.append_left _ ?_
    exact Perm.append (regionOut_perm lines r (by omega) h3) (ih r.stop h4 (by omega))

open List in
theorem reorderColumnRegions_perm (lines : List (List Tagged)) :
    (reorderColumnRegions lines).flatten ~ lines.flatten := by
  unfold reorderColumnRegions
  cases h : detectColumnRegions lines with
  | nil => exact Perm.refl _
  | cons r rs =>
    have hchain : chainOK lines.length 0 (r :: rs) := by
      have := detectFrom_chain lines (lines.map findDominantColumnGap)
        (by simp) (lines.map findDominantColumnGap).length 0 0 le_rfl
      rw [show detectFrom lines (lines.map findDominantColumnGap)
        (lines.map findDominantColumnGap).length 0 0 = detectColumnRegions lines from rfl,
        h] at this
      exact this
    simpa using reorderLoop_perm lines (r :: rs) 0 hchain (by omega)

theorem tagWith_map_item : ∀ (n : ℕ) (l : List TextItem),
    (tagWith n l).map (fun e => e.item) = l := by
  intro n l
  induction l generalizing n with
  | nil => rfl
  | cons it its ih => simp [tagWith, ih]

/-- **C1.** `sortTextItems` returns a permutation of its input: every fragment
appears exactly once in the output, none are created or destroyed, only
grouped and reordered. -/
theorem sortTextItems_perm (items : List TextItem) :
    List.Perm (sortTextItems items) items := by
  cases items with
  | nil => exact List.Perm.refl _
  | cons it its =>
    show List.Perm ((reorderColumnRegions (List.map sortLine (clusterLines
      (sortByLe yDescLe (tagWith 0 (it :: its)))))).flatten.map
        (fun e => e.item)) (it :: its)
    have h1 := reorderColumnRegions_perm (List.map sortLine (clusterLines
      (sortByLe yDescLe (tagWith 0 (it :: its)))))
    have h2 := flatten_map_perm sortLine (fun l => sortByLe_perm _ l)
      (clusterLines (sortByLe yDescLe (tagWith 0 (it :: its))))
    rw [clusterLines_flatten] at h2
    have h3 := sortByLe_perm yDescLe (tagWith 0 (it :: its))
    have h4 : List.Perm ((reorderColumnRegions (List.map sortLine (clusterLines
        (sortByLe yDescLe (tagWith 0 (it :: its)))))).flatten)
        (tagWith 0 (it :: its)) := (h1.trans h2).trans h3
    have h5 := h4.map (fun e : Tagged => e.item)
    rw [tagWith_map_item] at h5
    exact h5

-- ---------------------------------------------------------------------------
-- Line clustering characterization (C6)
-- ---------------------------------------------------------------------------

/-- Two consecutive fragments of one clustered line: the new-line condition
does not hold between them. -/
def inLineRel (p c : Tagged) : Prop := newLineCond p c = false

/-- Two consecutive clustered lines: the new-line condition holds between the
last fragment of the first and the first fragment of the second. -/
def boundaryRel (l₁ l₂ : List Tagged) : Prop :=
  ∃ p c, l₁.getLast? = some p ∧ l₂.head? = some c ∧ newLineCond p c = true

theorem clusterGo_good (xs : List Tagged) : ∀ (prev : Tagged) (cur : List Tagged)
    (acc : List (List Tagged)),
    cur.getLast? = some prev →
    cur.Chain' inLineRel →
    (∀ line ∈ acc, line ≠ [] ∧ line.Chain' inLineRel) →
    (acc ++ [cur]).Chain' boundaryRel →
    (∀ line ∈ clusterGo prev cur acc xs, line ≠ [] ∧ line.Chain' inLineRel) ∧
      (clusterGo prev cur acc xs).Chain' boundaryRel := by
  induction xs with
  | nil =>
    intro prev cur acc hlast hchain hacc hbnd
    simp only [clusterGo]
    refine ⟨?_, hbnd⟩
    intro line hline
    rcases List.mem_append.1 hline with h | h
    · exact hacc line h
    · have : line = cur := by simpa using h
      subst this
      exact ⟨fun hnil => by simp [hnil] at hlast, hchain⟩
  | cons x xs ih =>
    intro prev cur acc hlast hchain hacc hbnd
    have hcurne : cur ≠ [] := fun hnil => by simp [hnil] at hlast
    simp only [clusterGo]
    split
    · rename_i hcond
      refine ih x [x] (acc ++ [cur]) rfl (List.chain'_singleton _) ?_ ?_
      · intro line hline
        rcases List.mem_append.1 hline with h | h
        · exact hacc line h
        · have : line = cur := by simpa using h
          subst this
          exact ⟨hcurne, hchain⟩
      · rw [List.chain'_append]
        refine ⟨hbnd, List.chain'_singleton _, ?_⟩
        intro a ha b hb
        have ha' : cur = a := by
          rw [List.getLast?_append] at ha
          simpa using ha
        have hb' : [x] = b := by simpa using hb
        subst ha'; subst hb'
        exact ⟨prev, x, hlast, rfl, hcond⟩
    · rename_i hcond
      refine ih x (cur ++ [x]) acc (by simp) ?_ hacc ?_
      · rw [List.chain'_append]
        refine ⟨hchain, List.chain'_singleton _, ?_⟩
        intro a ha b hb
        have ha' : prev = a := by rw [hlast] at ha; simpa using ha
        have hb' : x = b := by simpa using hb
        subst ha'; subst hb'
        simpa [inLineRel] using hcond
      · rw [List.chain'_append] at hbnd ⊢
        refine ⟨hbnd.1, List.chain'_singleton _, ?_⟩
        intro a ha b hb
        have hb' : cur ++ [x] = b := by simpa using hb
        subst hb'
        have := hbnd.2.2 a ha cur (by simp)
        obtain ⟨p, c, hp, hc, hpc⟩ := this
        refine ⟨p, c, hp, ?_, hpc⟩
        cases cur with
        | nil => exact absurd rfl hcurne
        | cons y ys => simpa using hc

/-- **C6 (amended).**  The line clusterer partitions the y-sorted sequence
into nonempty lines and starts a new line exactly when
`|y - prevY| > (prevFontSize if > 0 else 12) * 0.5` against the immediately
preceding fragment: inside a line the condition never holds between
consecutive fragments, and across a line boundary it always holds. -/
theorem clusterLines_characterization (l : List Tagged) :
    (clusterLines l).flatten = l ∧
      (∀ line ∈ clusterLines l, line ≠ [] ∧ line.Chain' inLineRel) ∧
      (clusterLines l).Chain' boundaryRel := by
  refine ⟨clusterLines_flatten l, ?_⟩
  cases l with
  | nil => simp [clusterLines]
  | cons t ts =>
    have := clusterGo_good ts t [t] [] rfl (List.chain'_singleton _)
      (by intro line h; simp at h) (by simp)
    exact this

/-- Concrete fragments witnessing that the clustering threshold is *not*
`max(prevFontSize, 12) * 0.5`: font size 8, y-difference 5. -/
def c6PrevItem : Tagged :=
  ⟨{ text := "A", x := 0, y := 100, fontSize := 8, fontName := "F", width := 0 }, 0⟩

def c6CurItem : Tagged :=
  ⟨{ text := "B", x := 0, y := 95, fontSize := 8, fontName := "F", width := 0 }, 1⟩

/-- **C6 (counterexample).**  With previous font size 8 and y-difference 5 the
code starts a new line (5 > 8·0.5), although 5 does not exceed
`max(prevFontSize, 12) * 0.5 = 6` — so the claimed `max(prevFontSize, 12)`
threshold does not describe the code. -/
theorem clusterLines_max_formula_counterexample :
    clusterLines [c6PrevItem, c6CurItem] = [[c6PrevItem], [c6CurItem]] ∧
      ¬(|c6CurItem.item.y - c6PrevItem.item.y| >
        max c6PrevItem.item.fontSize 12 * 0.5) := by
  constructor
  · with_unfolding_all decide
  · with_unfolding_all decide

/-- **C6 (witness).**  The characterization applied at a concrete two-fragment
input, discharging the line-membership hypothesis there. -/
theorem clusterLines_characterization_witness :
    ([c6PrevItem] : List Tagged) ≠ [] ∧ ([c6PrevItem] : List Tagged).Chain' inLineRel :=
  (clusterLines_characterization [c6PrevItem, c6CurItem]).2.1 [c6PrevItem]
    (by with_unfolding_all decide)

-- ---------------------------------------------------------------------------
-- Column-region minimum run (C5)
-- ---------------------------------------------------------------------------

/-- Number of qualifying-gap lines among line indices `[a, b)`. -/
def countSomeFrom (gaps : List (Option GapInfo)) (a b : ℕ) : ℕ :=
  ((List.range' a (b - a)).map (fun k => gaps.getD k none)).countP (fun o => o.isSome)

theorem countSomeFrom_step (gaps : List (Option GapInfo)) (a b : ℕ) (h : a < b) :
    countSomeFrom gaps a b =
      (if (gaps.getD a none).isSome then 1 else 0) + countSomeFrom gaps (a + 1) b := by
  unfold countSomeFrom
  obtain ⟨k, hk⟩ : ∃ k, b - a = k + 1 := ⟨b - a - 1, by omega⟩
  rw [hk, List.range'_succ, List.map_cons, List.countP_cons,
    show b - (a + 1) = k by omega]
  by_cases hs : (gaps.getD a none).isSome
  · simp [hs]; omega
  · simp [hs]; omega

theorem countSomeFrom_split (gaps : List (Option GapInfo)) (a b c : ℕ)
    (hab : a ≤ b) (hbc : b ≤ c) :
    countSomeFrom gaps a c = countSomeFrom gaps a b + countSomeFrom gaps b c := by
  unfold countSomeFrom
  rw [show c - a = (c - b) + (b - a) by omega, ← List.range'_append_1,
    show a + (b - a) = b by omega, List.map_append, List.countP_append]

theorem growRegion_count (lines : List (List Tagged)) (gaps : List (Option GapInfo))
    (tolerance : ℚ) : ∀ (fuel j : ℕ) (s : ℚ) (c g : ℕ),
    (growRegion lines gaps tolerance fuel j s c g).2.2 ≤
      c + countSomeFrom gaps j (growRegion lines gaps tolerance fuel j s c g).1 := by
  intro fuel
  induction fuel with
  | zero => intro j s c g; simp [growRegion, countSomeFrom]
  | succ fuel ih =>
    intro j s c g
    simp only [growRegion]
    split
    · rename_i hj
      split
      · rename_i gi hgi
        split
        · simp [countSomeFrom]
        · rename_i htol
          have h1 := ih (j + 1) (s + gi.rightX) (c + 1) 0
          have hb := growRegion_bounds lines gaps tolerance fuel (j + 1)
            (s + gi.rightX) (c + 1) 0 (by omega)
          rw [countSomeFrom_split gaps j (j + 1) _ (by omega) (by omega),
            countSomeFrom_step gaps j (j + 1) (by omega)]
          simp only [hgi, Option.isSome_some, if_pos]
          have : countSomeFrom gaps (j + 1) (j + 1) = 0 := by simp [countSomeFrom]
          omega
      · split
        · simp [countSomeFrom]
        · split
          · simp [countSomeFrom]
          · split
            · simp [countSomeFrom]
            · have h1 := ih (j + 1) s c (g + 1)
              have hb := growRegion_bounds lines gaps tolerance fuel (j + 1) s c (g + 1)
                (by omega)
              rw [countSomeFrom_split gaps j (j + 1) _ (by omega) (by omega)]
              omega
    · simp [countSomeFrom]

theorem detectFrom_min_run (lines : List (List Tagged)) (gaps : List (Option GapInfo)) :
    ∀ (fuel i minStart : ℕ), minStart ≤ i →
    ∀ r ∈ detectFrom lines gaps fuel i minStart,
    MIN_COLUMN_RUN ≤ countSomeFrom gaps r.start r.stop := by
  intro fuel
  induction fuel with
  | zero => intro i m _ r hr; simp [detectFrom] at hr
  | succ fuel ih =>
    intro i m hmi r hr
    simp only [detectFrom] at hr
    split at hr
    · rename_i hi
      split at hr
      · exact ih (i + 1) m (by omega) r hr
      · rename_i anchor hanchor
        split at hr
        · rename_i hcount
          rcases List.mem_cons.1 hr with h | h
          · subst h
            have hgrow := growRegion_bounds lines gaps (anchor.fontSize * 3)
              gaps.length (i + 1) anchor.rightX 1 0 (by omega)
            have hback := backExtend_bounds lines gaps (anchor.fontSize * 3)
              ((growRegion lines gaps (anchor.fontSize * 3) gaps.length (i + 1)
                anchor.rightX 1 0).2.1 /
                ((growRegion lines gaps (anchor.fontSize * 3) gaps.length (i + 1)
                  anchor.rightX 1 0).2.2 : ℚ)) m i i 0 hmi
            have hcnt := growRegion_count lines gaps (anchor.fontSize * 3)
              gaps.length (i + 1) anchor.rightX 1 0
            simp only
            rw [countSomeFrom_split gaps _ i _ (by omega) (by omega),
              countSomeFrom_step gaps i _ (by omega), hanchor]
            simp only [Option.isSome_some, if_pos]
            simp only [MIN_COLUMN_RUN] at hcount ⊢
            omega
          · exact ih _ _ le_rfl r h
        · exact ih (i + 1) m (by omega) r hr
    · simp at hr

/-- Shorthand for the concrete example fragments. -/
def pageItem (t : String) (x y w fs : ℚ) : TextItem :=
  { text := t, x := x, y := y, fontSize := fs, fontName := "Helvetica", width := w }

/-- The spec's §8 example: two side-by-side three-row label/value blocks
(Name/Title/Date pairs at two x-offsets, 12 fragments, width 60, font 12). -/
def columnPage : List TextItem :=
  [ pageItem "Name:" 50 700 60 12, pageItem "Andrew Foley" 120 700 60 12,
    pageItem "Name:" 350 700 60 12, pageItem "Chris Smith" 420 700 60 12,
    pageItem "Title:" 50 685 60 12, pageItem "GM" 120 685 60 12,
    pageItem "Title:" 350 685 60 12, pageItem "Director" 420 685 60 12,
    pageItem "Date:" 50 670 60 12, pageItem "11/27/2023" 120 670 60 12,
    pageItem "Date:" 350 670 60 12, pageItem "12/01/2023" 420 670 60 12 ]

/-- `columnPage` reordered column-first: the whole left block's three lines,
then the whole right block's three lines. -/
def columnPageExpected : List TextItem :=
  [ pageItem "Name:" 50 700 60 12, pageItem "Andrew Foley" 120 700 60 12,
    pageItem "Title:" 50 685 60 12, pageItem "GM" 120 685 60 12,
    pageItem "Date:" 50 670 60 12, pageItem "11/27/2023" 120 670 60 12,
    pageItem "Name:" 350 700 60 12, pageItem "Chris Smith" 420 700 60 12,
    pageItem "Title:" 350 685 60 12, pageItem "Director" 420 685 60 12,
    pageItem "Date:" 350 670 60 12, pageItem "12/01/2023" 420 670 60 12 ]

/-- The same layout cut to two rows: only two lines exhibit a qualifying gap,
below the 3-line minimum. -/
def twoRowPage : List TextItem :=
  [ pageItem "Name:" 50 700 60 12, pageItem "Andrew Foley" 120 700 60 12,
    pageItem "Name:" 350 700 60 12, pageItem "Chris Smith" 420 700 60 12,
    pageItem "Title:" 50 685 60 12, pageItem "GM" 120 685 60 12,
    pageItem "Title:" 350 685 60 12, pageItem "Director" 420 685 60 12 ]

/-- **C5.**  A column region is accepted only with at least
`MIN_COLUMN_RUN = 3` qualifying-gap lines inside it (gapless bridge lines do
not count), and with only two gap lines no reordering happens: the row-first
order is preserved. -/
theorem detectColumnRegions_min_run :
    (∀ (lines : List (List Tagged)), ∀ r ∈ detectColumnRegions lines,
      MIN_COLUMN_RUN ≤ countSomeFrom (lines.map findDominantColumnGap) r.start r.stop) ∧
      sortTextItems twoRowPage = twoRowPage := by
  constructor
  · intro lines r hr
    exact detectFrom_min_run lines (lines.map findDominantColumnGap)
      (lines.map findDominantColumnGap).length 0 0 le_rfl r hr
  · with_unfolding_all decide

/-- A concrete three-line two-column page (already clustered/ordered). -/
def c5Line (y : ℚ) (n : ℕ) : List Tagged :=
  [⟨pageItem "L" 50 y 60 12, n⟩, ⟨pageItem "R" 350 y 60 12, n + 1⟩]

def c5Lines : List (List Tagged) := [c5Line 700 0, c5Line 685 2, c5Line 670 4]

/-- **C5 (witness).**  The minimum-run bound applied to a concrete page whose
three gap lines form one region `[0, 3)`. -/
theorem detectColumnRegions_min_run_witness :
    MIN_COLUMN_RUN ≤ countSomeFrom (c5Lines.map findDominantColumnGap) 0 3 :=
  detectColumnRegions_min_run.1 c5Lines ⟨0, 3, 350⟩ (by with_unfolding_all decide)

-- ---------------------------------------------------------------------------
-- Column reorderer refinement (C4)
-- ---------------------------------------------------------------------------

/-- Spec §4.5: the left parts of an accepted region, one per region line
(in top-to-bottom order), empty parts dropped; each line is split at its own
dominant gap's rightX when available, else at the region's learned boundary. -/
def specLeftParts (lines : List (List Tagged)) (r : ColumnRegion) : List (List Tagged) :=
  (((lines.drop r.start).take (r.stop - r.start)).map
    (fun l => l.filter (fun e => decide (e.item.x < lineSplitX r.boundaryX l)))).filter
    (fun l => !l.isEmpty)

/-- Spec §4.5: the right parts of an accepted region, top-to-bottom. -/
def specRightParts (lines : List (List Tagged)) (r : ColumnRegion) : List (List Tagged) :=
  (((lines.drop r.start).take (r.stop - r.start)).map
    (fun l => l.filter (fun e => !(decide (e.item.x < lineSplitX r.boundaryX l))))).filter
    (fun l => !l.isEmpty)

/-- Spec §4.5, stated over list slices: lines before/after the regions pass
through unchanged in order, every region is replaced by all its left parts
followed by all its right parts. -/
def reorderSpecLoop (lines : List (List Tagged)) :
    List ColumnRegion → ℕ → List (List Tagged)
  | [], idx => lines.drop idx
  | r :: rs, idx =>
    ((lines.drop idx).take (r.start - idx)) ++
      (specLeftParts lines r ++ specRightParts lines r) ++
      reorderSpecLoop lines rs r.stop

/-- The spec's description of the Column Region Reorderer (§4.5). -/
def reorderSpec (lines : List (List Tagged)) : List (List Tagged) :=
  match detectColumnRegions lines with
  | [] => lines
  | regions => reorderSpecLoop lines regions 0

theorem reorderLoop_eq_spec (lines : List (List Tagged)) :
    ∀ (regions : List ColumnRegion) (idx : ℕ),
    chainOK lines.length idx regions → idx ≤ lines.length →
    reorderLoop lines regions idx = reorderSpecLoop lines regions idx := by
  intro regions
  induction regions with
  | nil =>
    intro idx _ hle
    simp only [reorderLoop, reorderSpecLoop]
    rw [range'_map_getD _ _ _ _ (by omega),
      show lines.length - idx = (lines.drop idx).length by simp, List.take_length]
  | cons r rs ih =>
    intro idx hchain hle
    obtain ⟨h1, h2, h3, h4⟩ := hchain
    simp only [reorderLoop, reorderSpecLoop]
    rw [range'_map_getD _ _ _ _ (by omega), ih r.stop h4 (by omega)]
    congr 1
    congr 1
    unfold regionOut specLeftParts specRightParts
    rw [range'_map_getD _ _ _ _ (by omega)]

/-- **C4.**  The column reorderer behaves exactly as specified: for every
accepted region each line is split at that line's own detected gap rightX
(falling back to the region boundary), all left parts are emitted
top-to-bottom and then all right parts, and lines outside regions pass
through unchanged; on the two side-by-side three-row blocks the entire left
block precedes the right block. -/
theorem reorderColumnRegions_spec :
    (∀ lines : List (List Tagged), reorderColumnRegions lines = reorderSpec lines) ∧
      sortTextItems columnPage = columnPageExpected := by
  constructor
  · intro lines
    unfold reorderColumnRegions reorderSpec
    cases h : detectColumnRegions lines with
    | nil => rfl
    | cons r rs =>
      have hchain : chainOK lines.length 0 (r :: rs) := by
        have := detectFrom_chain lines (lines.map findDominantColumnGap)
          (by simp) (lines.map findDominantColumnGap).length 0 0 le_rfl
        rw [show detectFrom lines (lines.map findDominantColumnGap)
          (lines.map findDominantColumnGap).length 0 0 = detectColumnRegions lines
          from rfl, h] at this
        exact this
      exact reorderLoop_eq_spec lines (r :: rs) 0 hchain (by omega)
  · with_unfolding_all decide

-- ---------------------------------------------------------------------------
-- Walk core: break and space classification (C2, C3)
-- ---------------------------------------------------------------------------

theorem walkStep_events (links : List LinkAnnotation) (st : WalkState)
    (it : TextItem) (htext : it.text ≠ "") :
    (walkStep links st it).2 =
      (if |it.y - st.lastY| > st.lastFontSize * 0.5 ∧ st.hasContent = true then
        [WalkEvent.lineBreak (decide (|it.y - st.lastY| > st.lastFontSize * 1.8))]
      else if st.hasContent = true then
        (if it.x - (st.lastX + st.lastWidth) < -st.lastFontSize * 2 ∨
            shouldInsertSpace (it.x - (st.lastX + st.lastWidth)) (it.x - st.lastX)
              st.lastTextLen st.lastFontSize st.lastHasMetricWidth = true then
          [WalkEvent.space]
        else [])
      else []) ++ [WalkEvent.item it (findLinkForItem it links)] := by
  simp only [walkStep, if_neg htext]

/-- **C2.**  Once content has been emitted, a fragment signals a line break
iff `|y - lastY| > lastFontSize * 0.5`, and that break is a paragraph break
iff `|y - lastY| > lastFontSize * 1.8`; with font size 12, y 100 → 93 yields
a line break that is not a paragraph break, and y 100 → 76 yields a
paragraph break. -/
theorem walkStep_line_break_iff :
    (∀ (links : List LinkAnnotation) (st : WalkState) (it : TextItem),
      st.hasContent = true → it.text ≠ "" →
      (((walkStep links st it).2.head? = some (WalkEvent.lineBreak
          (decide (|it.y - st.lastY| > st.lastFontSize * 1.8)))) ↔
        |it.y - st.lastY| > st.lastFontSize * 0.5) ∧
      (∀ b, (walkStep links st it).2.head? = some (WalkEvent.lineBreak b) →
        (b = true ↔ |it.y - st.lastY| > st.lastFontSize * 1.8))) ∧
    walkEvents [pageItem "A" 0 100 8 12, pageItem "B" 0 93 8 12] [] =
      [WalkEvent.item (pageItem "A" 0 100 8 12) none, WalkEvent.lineBreak false,
       WalkEvent.item (pageItem "B" 0 93 8 12) none, WalkEvent.stop] ∧
    walkEvents [pageItem "A" 0 100 8 12, pageItem "B" 0 76 8 12] [] =
      [WalkEvent.item (pageItem "A" 0 100 8 12) none, WalkEvent.lineBreak true,
       WalkEvent.item (pageItem "B" 0 76 8 12) none, WalkEvent.stop] := by
  refine ⟨?_, by with_unfolding_all decide, by with_unfolding_all decide⟩
  intro links st it hc htext
  rw [show (walkStep links st it).2 = _ from walkStep_events links st it htext]
  by_cases hy : |it.y - st.lastY| > st.lastFontSize * 0.5
  · rw [if_pos ⟨hy, hc⟩]
    refine ⟨⟨fun _ => hy, fun _ => rfl⟩, ?_⟩
    intro b hb
    simp only [List.cons_append, List.head?_cons, Option.some.injEq,
      WalkEvent.lineBreak.injEq] at hb
    subst hb
    simp [decide_eq_true_iff]
  · rw [if_neg (fun hcon => hy hcon.1), if_pos hc]
    constructor
    · constructor
      · intro h
        split at h <;> simp at h
      · intro h; exact absurd h hy
    · intro b hb
      split at hb <;> simp at hb

/-- The walk state before the spec's §8 gap example: previous fragment
"Hello" at x 0 with metric width 30, font size 12. -/
def gapState : WalkState :=
  { lastX := 0, lastY := 100, lastFontSize := 12, lastWidth := 30
    lastHasMetricWidth := true, lastTextLen := 5, hasContent := true }

def gapItem : TextItem := pageItem "World" 40 100 25 12

/-- The walk state before the line-break example: previous fragment "A" at
y 100, font size 12. -/
def breakState : WalkState :=
  { lastX := 0, lastY := 100, lastFontSize := 12, lastWidth := 8
    lastHasMetricWidth := true, lastTextLen := 1, hasContent := true }

def breakItem : TextItem := pageItem "B" 0 93 8 12

/-- **C2 (witness).**  The break classification applied at the concrete
y 100 → 93 step. -/
theorem walkStep_line_break_iff_witness :
    (walkStep [] breakState breakItem).2.head? = some (WalkEvent.lineBreak
      (decide (|breakItem.y - breakState.lastY| > breakState.lastFontSize * 1.8))) :=
  ((walkStep_line_break_iff.1 [] breakState breakItem rfl
    (by with_unfolding_all decide)).1).mpr (by with_unfolding_all decide)

/-- **C3.**  On a same-line step with content already emitted, a space is
signaled iff `xGap < -lastFontSize * 2` or the gap classifier fires, where
`xGap = x - (lastX + lastWidth)` and `posGap = x - lastX`; the classifier
returns `xGap > fontSize * 0.15` with metric width and
`posGap > max(textLen, 1) * fontSize * 0.5` without. -/
theorem walkStep_space_iff :
    (∀ (links : List LinkAnnotation) (st : WalkState) (it : TextItem),
      st.hasContent = true → it.text ≠ "" →
      ¬(|it.y - st.lastY| > st.lastFontSize * 0.5) →
      ((walkStep links st it).2.head? = some WalkEvent.space ↔
        (it.x - (st.lastX + st.lastWidth) < -st.lastFontSize * 2 ∨
          shouldInsertSpace (it.x - (st.lastX + st.lastWidth)) (it.x - st.lastX)
            st.lastTextLen st.lastFontSize st.lastHasMetricWidth = true))) ∧
    (∀ (xGap posGap : ℚ) (textLen : ℕ) (fontSize : ℚ),
      (shouldInsertSpace xGap posGap textLen fontSize true = true ↔
        xGap > fontSize * 0.15) ∧
      (shouldInsertSpace xGap posGap textLen fontSize false = true ↔
        posGap > (max textLen 1 : ℕ) * fontSize * 0.5)) := by
  constructor
  · intro links st it hc htext hy
    rw [show (walkStep links st it).2 = _ from walkStep_events links st it htext]
    rw [if_neg (fun hcon => hy hcon.1), if_pos hc]
    constructor
    · intro h
      by_contra hcon
      rw [if_neg hcon] at h
      simp at h
    · intro h
      rw [if_pos h]
      rfl
  · intro xGap posGap textLen fontSize
    constructor
    · simp [shouldInsertSpace]
    · simp [shouldInsertSpace]

/-- **C3 (witness).**  The space rule applied at the concrete same-line step
"Hello" (x 0, width 30) → "World" (x 40): xGap 10 > 12·0.15. -/
theorem walkStep_space_iff_witness :
    (walkStep [] gapState gapItem).2.head? = some WalkEvent.space :=
  (walkStep_space_iff.1 [] gapState gapItem rfl (by with_unfolding_all decide)
    (by with_unfolding_all decide)).mpr
    (Or.inr (by with_unfolding_all decide))

-- ---------------------------------------------------------------------------
-- Font-size fallback sites (C7)
-- ---------------------------------------------------------------------------

/-- Replace a non-positive font size by 12 (the treatment the claim asserts
for every threshold site). -/
def fixNonposFS (it : TextItem) : TextItem :=
  if it.fontSize ≤ 0 then { it with fontSize := 12 } else it

def fixNonposFSTagged (e : Tagged) : Tagged := ⟨fixNonposFS e.item, e.i⟩

/-- Replace a zero font size by 12 (what the `|| 12` sites actually do). -/
def fixZeroFS (it : TextItem) : TextItem :=
  if it.fontSize = 0 then { it with fontSize := 12 } else it

def fixZeroFSTagged (e : Tagged) : Tagged := ⟨fixZeroFS e.item, e.i⟩

theorem jsOr_fixZeroFS (it : TextItem) :
    jsOr (fixZeroFS it).fontSize 12 = jsOr it.fontSize 12 := by
  unfold fixZeroFS jsOr
  by_cases h : it.fontSize = 0
  · simp [h]
  · simp [h]

theorem fixZeroFS_x (it : TextItem) : (fixZeroFS it).x = it.x := by
  unfold fixZeroFS; split <;> rfl

theorem fixZeroFS_width (it : TextItem) : (fixZeroFS it).width = it.width := by
  unfold fixZeroFS; split <;> rfl

theorem fixZeroFS_text (it : TextItem) : (fixZeroFS it).text = it.text := by
  unfold fixZeroFS; split <;> rfl

theorem dominantGapFold_fixZero (minGap : ℚ) :
    ∀ (pairs : List (Tagged × Tagged)) (st : ℚ × ℚ),
    dominantGapFold minGap (pairs.map
      (fun p => (fixZeroFSTagged p.1, fixZeroFSTagged p.2))) st =
      dominantGapFold minGap pairs st := by
  intro pairs
  induction pairs with
  | nil => intro st; rfl
  | cons p rest ih =>
    intro st
    obtain ⟨prev, curr⟩ := p
    obtain ⟨maxGap, maxRX⟩ := st
    simp only [List.map_cons, dominantGapFold, fixZeroFSTagged, fixZeroFS_x,
      fixZeroFS_width, fixZeroFS_text]
    rw [show jsOr (fixZeroFS prev.item).fontSize 12 = jsOr prev.item.fontSize 12
      from jsOr_fixZeroFS prev.item]
    split
    · exact ih _
    · exact ih _

theorem zip_tail_map (f : Tagged → Tagged) (l : List Tagged) :
    (l.map f).zip (l.map f).tail =
      (l.zip l.tail).map (fun p => (f p.1, f p.2)) := by
  rw [← List.map_tail, List.zip_map]
  rfl

theorem findDominantColumnGap_fixZero (line : List Tagged) :
    findDominantColumnGap (line.map fixZeroFSTagged) = findDominantColumnGap line := by
  match line with
  | [] => rfl
  | [a] => rfl
  | a :: b :: rest =>
    simp only [findDominantColumnGap, List.map_cons, List.length_cons,
      List.length_map, List.headD_cons]
    rw [show (fixZeroFSTagged a).item = fixZeroFS a.item from rfl, jsOr_fixZeroFS]
    rw [show (fixZeroFSTagged a :: fixZeroFSTagged b :: List.map fixZeroFSTagged rest) =
      List.map fixZeroFSTagged (a :: b :: rest) from rfl]
    rw [zip_tail_map fixZeroFSTagged (a :: b :: rest), dominantGapFold_fixZero]

/-- A concrete two-fragment line with font size −5: with the `|| 12` fallback
the qualifying-gap threshold is −5·3 = −15, so the 30-unit gap qualifies;
treating the size as 12 would demand > 36 and reject it. -/
def negFSLine : List Tagged :=
  [⟨{ text := "L", x := 0, y := 100, fontSize := -5, fontName := "F", width := 10 }, 0⟩,
   ⟨{ text := "R", x := 40, y := 100, fontSize := -5, fontName := "F", width := 10 }, 1⟩]

/-- **C7 (counterexample).**  Replacing the font size −5 by 12 changes the
column-gap detector's result: the `|| 12` fallback lets negative sizes
through, so a font size ≤ 0 is *not* uniformly treated as 12. -/
theorem fontSize_nonpos_counterexample :
    findDominantColumnGap (negFSLine.map fixNonposFSTagged) ≠
      findDominantColumnGap negFSLine := by
  with_unfolding_all decide

/-- **C7 (amended).**  Only the line clusterer treats `fontSize ≤ 0` as 12
(`fontSize > 0 ? fontSize : 12`); the column-gap sites use `|| 12` and thus
replace only an exact 0 by 12 — the detector is invariant under rewriting
zero font sizes to 12, and `itemRightEdge`'s width estimate likewise; in the
walk core a zero font size inherits the previous effective font size instead
of 12. -/
theorem fontSize_fallback_sites :
    (∀ fs : ℚ, fs ≤ 0 → clusterFontSize fs = 12) ∧
    (∀ line : List Tagged,
      findDominantColumnGap (line.map fixZeroFSTagged) = findDominantColumnGap line) ∧
    (∀ e : Tagged, itemRightEdge (fixZeroFSTagged e) = itemRightEdge e) ∧
    (∀ (links : List LinkAnnotation) (st : WalkState) (it : TextItem),
      it.text ≠ "" → it.fontSize = 0 →
      (walkStep links st it).1.lastFontSize = st.lastFontSize) := by
  refine ⟨?_, findDominantColumnGap_fixZero, ?_, ?_⟩
  · intro fs h
    unfold clusterFontSize
    rw [if_neg (by linarith)]
  · intro e
    unfold itemRightEdge
    rw [show (fixZeroFSTagged e).item = fixZeroFS e.item from rfl,
      fixZeroFS_x, fixZeroFS_width, fixZeroFS_text, jsOr_fixZeroFS]
  · intro links st it htext hfs
    simp only [walkStep, if_neg htext, jsOr, hfs, if_pos]

/-- **C7 (witness).**  The amended statement applied at concrete inputs:
cluster fallback at −5, and the zero-size inheritance at a concrete step. -/
theorem fontSize_fallback_sites_witness :
    clusterFontSize (-5) = 12 ∧
      (walkStep [] gapState (pageItem "x" 0 100 0 0)).1.lastFontSize =
        gapState.lastFontSize :=
  ⟨fontSize_fallback_sites.1 (-5) (by with_unfolding_all decide),
    fontSize_fallback_sites.2.2.2 [] gapState (pageItem "x" 0 100 0 0)
      (by with_unfolding_all decide) rfl⟩

-- ---------------------------------------------------------------------------
-- Idempotence of the ordering pipeline (C8)
-- ---------------------------------------------------------------------------

theorem mem_insertLe (le : α → α → Bool) (x : α) (l : List α) (z : α) :
    z ∈ insertLe le x l ↔ z = x ∨ z ∈ l := by
  have := (insertLe_perm le x l).mem_iff (a := z)
  simpa using this

theorem mem_sortByLe (le : α → α → Bool) (l : List α) (z : α) :
    z ∈ sortByLe le l ↔ z ∈ l := (sortByLe_perm le l).mem_iff

theorem sortByLe_eq_self (le : α → α → Bool) :
    ∀ l : List α, l.Pairwise (fun a b => le a b = true) → sortByLe le l = l := by
  intro l
  induction l with
  | nil => intro _; rfl
  | cons x xs ih =>
    intro h
    rw [List.pairwise_cons] at h
    simp only [sortByLe]
    rw [ih h.2]
    cases xs with
    | nil => rfl
    | cons y ys =>
      simp only [insertLe]
      rw [if_pos (h.1 y (by simp))]

theorem insertLe_pairwise (le : α → α → Bool)
    (htot : ∀ a b, le a b = true ∨ le b a = true)
    (htrans : ∀ a b c, le a b = true → le b c = true → le a c = true)
    (x : α) : ∀ l : List α, l.Pairwise (fun a b => le a b = true) →
    (insertLe le x l).Pairwise (fun a b => le a b = true) := by
  intro l
  induction l with
  | nil => intro _; simp [insertLe]
  | cons y ys ih =>
    intro h
    rw [List.pairwise_cons] at h
    simp only [insertLe]
    split
    · rename_i hxy
      rw [List.pairwise_cons]
      refine ⟨?_, List.pairwise_cons.mpr h⟩
      intro z hz
      rcases List.mem_cons.1 hz with rfl | hz'
      · exact hxy
      · exact htrans x y z hxy (h.1 z hz')
    · rename_i hxy
      have hyx : le y x = true := by
        rcases htot x y with h' | h'
        · exact absurd h' hxy
        · exact h'
      rw [List.pairwise_cons]
      refine ⟨?_, ih h.2⟩
      intro z hz
      rcases (mem_insertLe le x ys z).1 hz with rfl | hz'
      · exact hyx
      · exact h.1 z hz'

theorem sortByLe_pairwise (le : α → α → Bool)
    (htot : ∀ a b, le a b = true ∨ le b a = true)
    (htrans : ∀ a b c, le a b = true → le b c = true → le a c = true) :
    ∀ l : List α, (sortByLe le l).Pairwise (fun a b => le a b = true) := by
  intro l
  induction l with
  | nil => simp [sortByLe]
  | cons x xs ih => exact insertLe_pairwise le htot htrans x _ ih

theorem insertLe_congr (le le' : α → α → Bool) (x : α) :
    ∀ l : List α, (∀ b ∈ l, le x b = le' x b) →
    insertLe le x l = insertLe le' x l := by
  intro l
  induction l with
  | nil => intro _; rfl
  | cons y ys ih =>
    intro h
    simp only [insertLe]
    rw [h y (by simp)]
    split
    · rfl
    · rw [ih (fun b hb => h b (by simp [hb]))]

theorem sortByLe_congr (le le' : α → α → Bool) :
    ∀ l : List α, (∀ a ∈ l, ∀ b ∈ l, le a b = le' a b) →
    sortByLe le l = sortByLe le' l := by
  intro l
  induction l with
  | nil => intro _; rfl
  | cons x xs ih =>
    intro h
    simp only [sortByLe]
    rw [ih (fun a ha b hb => h a (by simp [ha]) b (by simp [hb]))]
    exact insertLe_congr le le' x _ (fun b hb =>
      h x (by simp) b (by simp [(mem_sortByLe le' xs b).1 hb]))

theorem clusterFontSize_pos (fs : ℚ) : 0 < clusterFontSize fs := by
  unfold clusterFontSize
  split
  · assumption
  · norm_num

theorem newLineCond_same_y (prev cur : Tagged) (h : cur.item.y = prev.item.y) :
    newLineCond prev cur = false := by
  unfold newLineCond
  rw [h]
  simp only [sub_self, abs_zero, decide_eq_false_iff_not, not_lt]
  have := clusterFontSize_pos prev.item.fontSize
  nlinarith

theorem clusterGo_uniform_y (y0 : ℚ) :
    ∀ (xs : List Tagged) (prev : Tagged) (cur : List Tagged)
      (acc : List (List Tagged)),
    prev.item.y = y0 → (∀ x ∈ xs, x.item.y = y0) →
    clusterGo prev cur acc xs = acc ++ [cur ++ xs] := by
  intro xs
  induction xs with
  | nil => intro prev cur acc _ _; simp [clusterGo]
  | cons x xs ih =>
    intro prev cur acc hprev hxs
    have hx : x.item.y = y0 := hxs x (by simp)
    simp only [clusterGo]
    rw [newLineCond_same_y prev x (by rw [hx, hprev])]
    simp only [Bool.false_eq_true, if_false]
    rw [ih x (cur ++ [x]) acc hx (fun z hz => hxs z (by simp [hz]))]
    simp

theorem clusterLines_uniform_y (y0 : ℚ) (l : List Tagged) (hne : l ≠ [])
    (h : ∀ x ∈ l, x.item.y = y0) : clusterLines l = [l] := by
  cases l with
  | nil => exact absurd rfl hne
  | cons t ts =>
    simp only [clusterLines]
    rw [clusterGo_uniform_y y0 ts t [t] [] (h t (by simp))
      (fun z hz => h z (by simp [hz]))]
    simp

theorem detectColumnRegions_single (l : List Tagged) :
    detectColumnRegions [l] = [] := by
  unfold detectColumnRegions
  cases h : findDominantColumnGap l with
  | none => simp [detectFrom, h]
  | some g => simp [detectFrom, h, growRegion, MIN_COLUMN_RUN]

theorem reorderColumnRegions_single (l : List Tagged) :
    reorderColumnRegions [l] = [l] := by
  unfold reorderColumnRegions
  rw [detectColumnRegions_single]

/-- The bare x-ascending comparator that phase 3 degenerates to when no
fragment carries a text-object id. -/
def xLe (a b : Tagged) : Bool := decide (a.item.x ≤ b.item.x)

theorem lineLe_no_ids (line : List Tagged) (a b : Tagged)
    (ha : a.item.textObjectId = none) : lineLe line a b = xLe a b := by
  unfold lineLe xLe
  rw [ha]

theorem tagWith_mem : ∀ (n : ℕ) (l : List TextItem) (e : Tagged),
    e ∈ tagWith n l → e.item ∈ l := by
  intro n l
  induction l generalizing n with
  | nil => intro e h; simp [tagWith] at h
  | cons it its ih =>
    intro e h
    simp only [tagWith, List.mem_cons] at h
    rcases h with rfl | h
    · simp
    · exact List.mem_cons_of_mem _ (ih (n + 1) e h)

theorem tagWith_pairwise (P : TextItem → TextItem → Prop) :
    ∀ (n : ℕ) (l : List TextItem), l.Pairwise P →
    (tagWith n l).Pairwise (fun a b => P a.item b.item) := by
  intro n l
  induction l generalizing n with
  | nil => intro _; simp [tagWith]
  | cons it its ih =>
    intro h
    rw [List.pairwise_cons] at h
    simp only [tagWith]
    rw [List.pairwise_cons]
    exact ⟨fun e he => h.1 e.item (tagWith_mem _ _ e he), ih (n + 1) h.2⟩

theorem tagWith_ne_nil (n : ℕ) (it : TextItem) (its : List TextItem) :
    tagWith n (it :: its) ≠ [] := by simp [tagWith]

/-- On a page whose fragments all share one y and carry no text-object ids,
the whole pipeline reduces to the stable x-sort of the stream-tagged input. -/
theorem sortTextItems_uniform (items : List TextItem) (y0 : ℚ) (hne : items ≠ [])
    (hy : ∀ it ∈ items, it.y = y0)
    (hid : ∀ it ∈ items, it.textObjectId = none) :
    sortTextItems items = (sortByLe xLe (tagWith 0 items)).map (fun e => e.item) := by
  cases items with
  | nil => exact absurd rfl hne
  | cons it its =>
    show (reorderColumnRegions (List.map sortLine (clusterLines
      (sortByLe yDescLe (tagWith 0 (it :: its)))))).flatten.map (fun e => e.item) = _
    have hsorted : sortByLe yDescLe (tagWith 0 (it :: its)) = tagWith 0 (it :: its) := by
      apply sortByLe_eq_self
      have hpw : (it :: its).Pairwise (fun p q => decide (q.y ≤ p.y) = true) := by
        apply List.pairwise_of_forall_mem_list
        intro p hp q hq
        simp [hy p hp, hy q hq]
      exact tagWith_pairwise (fun p q => decide (q.y ≤ p.y) = true) 0 _ hpw
    rw [hsorted]
    rw [clusterLines_uniform_y y0 _ (tagWith_ne_nil 0 it its)
      (fun e he => hy e.item (tagWith_mem _ _ e he))]
    simp only [List.map_cons, List.map_nil]
    rw [show sortLine (tagWith 0 (it :: its)) = sortByLe xLe (tagWith 0 (it :: its)) by
      unfold sortLine
      exact sortByLe_congr _ _ _ (fun a ha b _ =>
        lineLe_no_ids _ a b (hid a.item (tagWith_mem _ _ a ha)))]
    rw [reorderColumnRegions_single]
    simp

/-- **C8 (amended).**  The pipeline is idempotent on single-line pages: when
all fragments share one y (one visual line) and none carries a text-object
id, `sortTextItems (sortTextItems items) = sortTextItems items`. -/
theorem sortTextItems_idempotent_single_line (items : List TextItem)
    (hy : ∀ a ∈ items, ∀ b ∈ items, a.y = b.y)
    (hid : ∀ it ∈ items, it.textObjectId = none) :
    sortTextItems (sortTextItems items) = sortTextItems items := by
  cases hitems : items with
  | nil => rfl
  | cons it0 its0 =>
    subst hitems
    set y0 := it0.y with hy0
    have hy' : ∀ p ∈ it0 :: its0, p.y = y0 := fun p hp => hy p hp it0 (by simp)
    have h1 := sortTextItems_uniform (it0 :: its0) y0 (by simp) hy' hid
    set L := sortByLe xLe (tagWith 0 (it0 :: its0)) with hL
    have hperm : List.Perm L (tagWith 0 (it0 :: its0)) := sortByLe_perm _ _
    have hmem : ∀ e ∈ L, e.item ∈ it0 :: its0 := fun e he =>
      tagWith_mem 0 _ e (hperm.subset he)
    -- facts about the once-sorted page
    have hne2 : L.map (fun e => e.item) ≠ [] := by
      have : L.length = (tagWith 0 (it0 :: its0)).length := hperm.length_eq
      intro hcon
      rw [List.map_eq_nil_iff] at hcon
      rw [hcon] at this
      simp [tagWith] at this
    have hy2 : ∀ p ∈ L.map (fun e => e.item), p.y = y0 := by
      intro p hp
      rw [List.mem_map] at hp
      obtain ⟨e, he, rfl⟩ := hp
      exact hy' e.item (hmem e he)
    have hid2 : ∀ p ∈ L.map (fun e => e.item), p.textObjectId = none := by
      intro p hp
      rw [List.mem_map] at hp
      obtain ⟨e, he, rfl⟩ := hp
      exact hid e.item (hmem e he)
    have h2 := sortTextItems_uniform (L.map (fun e => e.item)) y0 hne2 hy2 hid2
    -- the once-sorted page is already x-sorted, so the second sort is the identity
    have hLpw : L.Pairwise (fun a b => xLe a b = true) :=
      sortByLe_pairwise xLe
        (fun a b => by
          unfold xLe
          rcases le_total a.item.x b.item.x with h | h
          · exact Or.inl (by simpa using h)
          · exact Or.inr (by simpa using h))
        (fun a b c hab hbc => by
          unfold xLe at hab hbc ⊢
          simp only [decide_eq_true_iff] at hab hbc ⊢
          exact le_trans hab hbc) _
    have hitemspw : (L.map (fun e => e.item)).Pairwise
        (fun p q : TextItem => p.x ≤ q.x) := by
      rw [List.pairwise_map]
      exact hLpw.imp (fun {a b} h => by simpa [xLe] using h)
    have htag2 : (tagWith 0 (L.map (fun e => e.item))).Pairwise
        (fun a b => xLe a b = true) := by
      have := tagWith_pairwise (fun p q : TextItem => p.x ≤ q.x) 0 _ hitemspw
      exact this.imp (fun {a b} h => by simpa [xLe] using h)
    have h3 : sortByLe xLe (tagWith 0 (L.map (fun e => e.item))) =
        tagWith 0 (L.map (fun e => e.item)) := sortByLe_eq_self _ _ htag2
    rw [h1, h2, h3, tagWith_map_item]

/-- A page on which the pipeline is *not* idempotent: a wide-font fragment A
and a tiny-font fragment B share y = 100, C sits at y = 97.  On the first
pass B (font 1) precedes A in stream order, so A (font 100) is the clustering
predecessor of C and absorbs it into one line; the x-sort then moves B before
A, and on the second pass B (font 1) becomes C's predecessor, splitting C
into its own line and changing the final x-interleaving. -/
def idemPage : List TextItem :=
  [ { text := "A", x := 10, y := 100, fontSize := 100, fontName := "F", width := 0 },
    { text := "B", x := 0, y := 100, fontSize := 1, fontName := "F", width := 0 },
    { text := "C", x := 5, y := 97, fontSize := 12, fontName := "F", width := 0 } ]

/-- **C8 (counterexample).**  `sortTextItems` is not idempotent: on `idemPage`
the first pass yields B, A, C and the second pass yields B, C, A. -/
theorem sortTextItems_not_idempotent :
    sortTextItems (sortTextItems idemPage) ≠ sortTextItems idemPage := by
  with_unfolding_all decide

/-- **C8 (witness).**  Idempotence applied to a concrete single-line page. -/
theorem sortTextItems_idempotent_single_line_witness :
    sortTextItems (sortTextItems
        [pageItem "B" 20 100 8 12, pageItem "A" 0 100 8 12]) =
      sortTextItems [pageItem "B" 20 100 8 12, pageItem "A" 0 100 8 12] :=
  sortTextItems_idempotent_single_line _
    (by intro a ha b hb; fin_cases ha <;> fin_cases hb <;> rfl)
    (by intro p hp; fin_cases hp <;> rfl)

-- ---------------------------------------------------------------------------
-- Open-anchor stripping guard (C9)
-- ---------------------------------------------------------------------------

theorem not_digit_of_lookahead (c : Char)
    (h : isJsWs c = true ∨ c = '\\' ∨ c.isAlpha = true) : c.isDigit = false := by
  rcases h with h | h | h
  · simp only [isJsWs, Bool.or_eq_true, decide_eq_true_eq] at h
    rcases h with ((((((rfl | rfl) | rfl) | rfl) | rfl) | rfl) | rfl) <;> decide
  · subst h; decide
  · simp only [Char.isAlpha, Bool.or_eq_true, Char.isUpper, Char.isLower,
      Bool.and_eq_true, decide_eq_true_eq] at h
    simp only [Char.isDigit, Bool.and_eq_false_iff, decide_eq_false_iff_not, not_le]
    rcases h with ⟨h1, h2⟩ | ⟨h1, h2⟩ <;> right <;>
      simp_all [Char.le_def, Char.lt_def, UInt32.le_def, UInt32.lt_def,
        BitVec.le_def, BitVec.lt_def] <;> omega

/-- **C9.**  The open-anchor alternative consumes text only when the next
character is whitespace, a backslash, or a letter (or the string ends) —
never a digit; `"\date14/1/2025"` passes through unchanged while
`"\date1 4/1/2025"` loses its anchor. -/
theorem stripFormPlaceholder_open_guard :
    (∀ (cs : List Char) (n : ℕ),
      stripMatchAt cs = some (MatchKind.openAnchor, n) →
      (cs.drop n = [] ∨ ∃ c rest, cs.drop n = c :: rest ∧
        (isJsWs c = true ∨ c = '\\' ∨ c.isAlpha = true) ∧ c.isDigit = false)) ∧
    stripFormPlaceholderText "\\date14/1/2025" = "\\date14/1/2025" ∧
    stripFormPlaceholderText "\\date1 4/1/2025" = " 4/1/2025" := by
  refine ⟨?_, by with_unfolding_all decide, by with_unfolding_all decide⟩
  intro cs n h
  unfold stripMatchAt at h
  split at h
  · rename_i rest
    dsimp only at h
    split at h
    · exact absurd h (by simp)
    · rename_i hlet
      split at h
      · exact absurd h (by simp)
      · rename_i hnb
        split at h
        · rename_i hguard
          simp only [Option.some.injEq, Prod.mk.injEq] at h
          obtain ⟨-, hn⟩ := h
          have hdrop : ('\\' :: rest).drop n =
              (rest.drop ((rest.takeWhile isAnchorChar).length)).drop
                (((rest.drop ((rest.takeWhile isAnchorChar).length)).takeWhile
                  isDigitChar).length) := by
            rw [← hn, show 1 + (rest.takeWhile isAnchorChar).length +
              ((rest.drop ((rest.takeWhile isAnchorChar).length)).takeWhile
                isDigitChar).length =
              ((rest.takeWhile isAnchorChar).length +
                ((rest.drop ((rest.takeWhile isAnchorChar).length)).takeWhile
                  isDigitChar).length) + 1 by omega]
            rw [List.drop_succ_cons, List.drop_drop]
          rcases hcase : (rest.drop ((rest.takeWhile isAnchorChar).length)).drop
              (((rest.drop ((rest.takeWhile isAnchorChar).length)).takeWhile
                isDigitChar).length) with _ | ⟨c, r⟩
          · left
            rw [hdrop, hcase]
          · right
            have hcls : isJsWs c = true ∨ c = '\\' ∨ c.isAlpha = true := by
              have := hguard.2
              rw [hcase] at this
              simp only [openLookaheadOk, Bool.or_eq_true, decide_eq_true_eq] at this
              tauto
            exact ⟨c, r, by rw [hdrop, hcase], hcls, not_digit_of_lookahead c hcls⟩
        · exact absurd h (by simp)
  · split at h
    · simp at h
    · split at h
      · simp at h
      · simp at h
  · simp at h

/-- **C9 (witness).**  The guard applied to the concrete anchor
`"\date1 4/1/2025"`, whose open anchor is matched with length 6. -/
theorem stripFormPlaceholder_open_guard_witness :
    ("\\date1 4/1/2025".data.drop 6 = [] ∨
      ∃ c rest, "\\date1 4/1/2025".data.drop 6 = c :: rest ∧
        (isJsWs c = true ∨ c = '\\' ∨ c.isAlpha = true) ∧ c.isDigit = false) :=
  stripFormPlaceholder_open_guard.1 "\\date1 4/1/2025".data 6
    (by with_unfolding_all decide)

-- ---------------------------------------------------------------------------
-- Structured sink: line text is the concatenation of its spans (C10)
-- ---------------------------------------------------------------------------

/-- In-order concatenation of the spans' text fields. -/
def spanTextsJoin : List TextSpan → String
  | [] => ""
  | s :: rest => s.text ++ spanTextsJoin rest

theorem spanTextsJoin_append (a b : List TextSpan) :
    spanTextsJoin (a ++ b) = spanTextsJoin a ++ spanTextsJoin b := by
  induction a with
  | nil => simp [spanTextsJoin]
  | cons s rest ih => simp [spanTextsJoin, ih, String.append_assoc]

theorem spans_dropLast_getLast (spans : List TextSpan) (last : TextSpan)
    (h : spans.getLast? = some last) : spans = spans.dropLast ++ [last] := by
  have hne : spans ≠ [] := by
    intro hcon
    rw [hcon] at h
    simp at h
  conv_lhs => rw [← List.dropLast_append_getLast hne]
  rw [List.getLast?_eq_getLast spans hne] at h
  simp only [Option.some.injEq] at h
  rw [h]

/-- The state invariant of the structured sink: the running text is the
in-order concatenation of the current spans' texts. -/
def sinkInv (st : SinkState) : Prop := st.text = spanTextsJoin st.spans

theorem spanTextsJoin_mutate_last (spans : List TextSpan) (last : TextSpan)
    (h : spans.getLast? = some last) (t : String) (s : TextSpan)
    (hs : s.text = last.text ++ t) :
    spanTextsJoin (spans.dropLast ++ [s]) = spanTextsJoin spans ++ t := by
  conv_rhs => rw [spans_dropLast_getLast spans last h]
  rw [spanTextsJoin_append, spanTextsJoin_append]
  simp [spanTextsJoin, hs, String.append_assoc]

theorem appendToSpans_inv (st : SinkState) (rawText fontName : String)
    (link : Option String) (h : sinkInv st) :
    sinkInv (appendToSpans st rawText fontName link) := by
  unfold sinkInv at h ⊢
  unfold appendToSpans
  cases link with
  | none =>
    dsimp only
    cases hlast : st.spans.getLast? with
    | none => simp [spanTextsJoin_append, spanTextsJoin, h]
    | some last =>
      dsimp only
      split
      · rw [h]
        exact (spanTextsJoin_mutate_last st.spans last hlast
          (normalizePUA rawText)
          { text := last.text ++ normalizePUA rawText, bold := last.bold,
            italic := last.italic, link := last.link } rfl).symm
      · simp [spanTextsJoin_append, spanTextsJoin, h]
  | some u =>
    dsimp only
    cases hlast : st.spans.getLast? with
    | none => simp [spanTextsJoin_append, spanTextsJoin, h]
    | some last =>
      dsimp only
      split
      · rw [h]
        exact (spanTextsJoin_mutate_last st.spans last hlast
          (normalizePUA rawText)
          { text := last.text ++ normalizePUA rawText, bold := last.bold,
            italic := last.italic, link := last.link } rfl).symm
      · simp [spanTextsJoin_append, spanTextsJoin, h]

theorem sinkOnItem_inv (st : SinkState) (item : TextItem) (link : Option String)
    (h : sinkInv st) : sinkInv (sinkOnItem st item link) := by
  unfold sinkOnItem
  split
  · exact appendToSpans_inv _ _ _ _ h
  · exact appendToSpans_inv _ _ _ _ h

theorem sinkOnSpace_inv (st : SinkState) (h : sinkInv st) :
    sinkInv (sinkOnSpace st) := by
  unfold sinkInv at h ⊢
  unfold sinkOnSpace
  cases hlast : st.spans.getLast? with
  | none => exact h
  | some last =>
    simp only
    rw [spanTextsJoin_mutate_last st.spans last hlast " " _ rfl, h]

theorem sinkGo_inv (events : List WalkEvent) : ∀ (st : SinkState), sinkInv st →
    ∀ line ∈ sinkGo st events, line.text = spanTextsJoin line.spans := by
  induction events with
  | nil => intro st _ line hline; simp [sinkGo] at hline
  | cons e es ih =>
    intro st hst line hline
    cases e with
    | lineBreak isPara =>
      simp only [sinkGo, pushLine] at hline
      rcases List.mem_append.1 hline with h | h
      · split at h
        · rw [List.mem_singleton] at h
          subst h
          exact hst
        · simp at h
      · exact ih _ (by simp [sinkInv, spanTextsJoin]) line h
    | space =>
      simp only [sinkGo] at hline
      exact ih _ (sinkOnSpace_inv st hst) line hline
    | item it lk =>
      simp only [sinkGo] at hline
      exact ih _ (sinkOnItem_inv st it lk hst) line hline
    | stop =>
      simp only [sinkGo, pushLine] at hline
      rcases List.mem_append.1 hline with h | h
      · split at h
        · rw [List.mem_singleton] at h
          subst h
          exact hst
        · simp at h
      · exact ih _ (by simp [sinkInv, spanTextsJoin]) line h

/-- **C10.**  With placeholder stripping disabled, every structured line's
`text` equals the in-order concatenation of its spans' texts. -/
theorem assembleStructuredItems_text_eq_spans
    (items : List TextItem) (links : List LinkAnnotation) :
    ∀ line ∈ assembleStructuredItems items links
      (some { stripFormPlaceholders := some false }),
    line.text = spanTextsJoin line.spans := by
  intro line hline
  unfold assembleStructuredItems at hline
  split at hline
  · simp at hline
  · rw [if_neg (by decide)] at hline
    exact sinkGo_inv _ _ (by simp [sinkInv, spanTextsJoin]) line hline

/-- The structured line produced for the concrete "Hello" / "World" page. -/
def helloWorldLine : StructuredLine :=
  { text := "Hello World"
    spans := [{ text := "Hello World", bold := false, italic := false, link := none }]
    fontSize := 12
    y := 100
    isBlankAfter := false }

/-- **C10 (witness).**  The invariant at the concrete two-fragment page
"Hello" / "World". -/
theorem assembleStructuredItems_text_eq_spans_witness :
    helloWorldLine.text = spanTextsJoin helloWorldLine.spans :=
  assembleStructuredItems_text_eq_spans
    [pageItem "Hello" 0 100 30 12, pageItem "World" 40 100 25 12] []
    helloWorldLine (by with_unfolding_all decide)

end Docutext
